import Mathlib

/-!
Verification of the draw.io-to-Java class-model generator
(`generator/generate.py`).

Strings are modelled as lists of Unicode code points (`List Nat`); the
case-mapping functions model Python's `str.lower` / `str.upper` on the
ASCII range, which covers every string constant the program compares
against.  Floating-point geometry is modelled with rationals: the
program only compares coordinates with `≤`, and every coordinate in the
claims is integral, where IEEE doubles and rationals agree.
-/

namespace Generate

/-- Strings as lists of Unicode code points. -/
abbrev Str := List Nat

/-- Code points of a Lean string literal, for readable concrete inputs. -/
def strToCodes (s : String) : Str := s.data.map Char.toNat

/-- Whitespace test used by Python's argument-less `str.split`
(space, tab, LF, VT, FF, CR on the ASCII range). -/
def pyIsSpace (c : Nat) : Bool :=
  c = 32 || c = 9 || c = 10 || c = 11 || c = 12 || c = 13

/-- ASCII model of Python's single-character `str.lower`. -/
def pyToLower (c : Nat) : Nat :=
  if 65 ≤ c ∧ c ≤ 90 then c + 32 else c

/-- ASCII model of Python's single-character `str.upper`. -/
def pyToUpper (c : Nat) : Nat :=
  if 97 ≤ c ∧ c ≤ 122 then c - 32 else c

/-- Python's `str.lower`, mapped over the code points. -/
def lowerStr (s : Str) : Str := s.map pyToLower

/-- Python's `str.capitalize` on a word: first code point upper-cased,
all remaining code points lower-cased. -/
def capitalize : Str → Str
  | [] => []
  | c :: rest => pyToUpper c :: rest.map pyToLower

/-- Accumulator-style splitter behind `pySplit`; `cur` holds the
current in-progress token in reverse. -/
def splitAux (cur : Str) : Str → List Str
  | [] => if cur = [] then [] else [cur.reverse]
  | c :: cs =>
    if pyIsSpace c then
      if cur = [] then splitAux [] cs else cur.reverse :: splitAux [] cs
    else
      splitAux (c :: cur) cs

/-- Python's argument-less `str.split`: split on whitespace runs,
dropping empty tokens (`generate.py`, `name.split()`). -/
def pySplit (s : Str) : List Str := splitAux [] s

/-- Model of `DrawIOParser.sanitize_class_name`: more than one whitespace token
gives the concatenation of the capitalized tokens; otherwise the first
code point of the whole string is upper-cased and the rest kept. -/
def sanitize_class_name (name : Str) : Str :=
  let parts := pySplit name
  if parts.length > 1 then
    (parts.map capitalize).flatten
  else
    match name with
    | [] => []
    | c :: rest => pyToUpper c :: rest

/-- Edge record extracted from a connector cell (`Edge` dataclass). -/
structure Edge where
  source_id : Str
  target_id : Str
  label : Str
  style : Str
  deriving DecidableEq

/-- Relationship kinds returned by `RelationshipClassifier.classify`. -/
inductive RelKind where
  | EXPANDS
  | DEPENDS
  | HAVE
  | PART_OF
  | UNKNOWN
  deriving DecidableEq

/-- Python's `needle in hay` substring test (case handled by callers). -/
def strContains (hay needle : Str) : Bool := decide (needle <:+: hay)

/-- Model of `RelationshipClassifier.classify`: the nested `if`/`return` chain of
`generate.py` lines 103-127, flattened branch by branch (a failed inner
test falls through to the next outer test, so the flattening is exact). -/
def classify (edge : Edge) : RelKind :=
  let label_lower := lowerStr edge.label
  let style_lower := lowerStr edge.style
  if strContains label_lower (strToCodes "expands") then .EXPANDS
  else if strContains label_lower (strToCodes "depends") then .DEPENDS
  else if (strContains style_lower (strToCodes "endfill")
        || strContains style_lower (strToCodes "startfill=1"))
      && (strContains style_lower (strToCodes "endfill=1")
        || strContains style_lower (strToCodes "startarrow=oval")) then .HAVE
  else if strContains style_lower (strToCodes "dashed=1")
      && (strContains style_lower (strToCodes "endarrow=open")
        || strContains style_lower (strToCodes "endarrow=block")) then .EXPANDS
  else if strContains style_lower (strToCodes "dashed=1")
      && strContains style_lower (strToCodes "endarrow=classic") then .DEPENDS
  else if strContains style_lower (strToCodes "endarrow")
      && !(strContains style_lower (strToCodes "dashed"))
      && (strContains style_lower (strToCodes "endarrow=classic")
        || strContains style_lower (strToCodes "endarrow=block")) then .PART_OF
  else .UNKNOWN

/-- Model of `RelationshipClassifier.get_multiplicity`: `"*"` when the label
contains the code point of `*` (42), else `"1"`. -/
def get_multiplicity (edge : Edge) : Str :=
  if edge.label.contains 42 then [42] else [49]

/-- Model of `RelationshipClassifier.has_black_circle`: style contains an oval
start- or end-arrow marker (case-insensitively). -/
def has_black_circle (edge : Edge) : Bool :=
  strContains (lowerStr edge.style) (strToCodes "startarrow=oval")
    || strContains (lowerStr edge.style) (strToCodes "endarrow=oval")

/-- Model of the `ClassDef` dataclass: class name, optional superclass (`extends`),
and the ordered field list of `(field_type, field_name, is_list)`
triples. -/
structure ClassDef where
  name : Str
  extends_ : Option Str := none
  fields : List (Str × Str × Bool) := []
  deriving DecidableEq

/-- Model of `ClassDef.add_field`: append `(field_type, field_name, is_list)`
unless a field with the same name is already present. -/
def ClassDef.add_field (c : ClassDef) (field_type field_name : Str) (is_list : Bool) : ClassDef :=
  if c.fields.any (fun f => f.2.1 == field_name) then c
  else { c with fields := c.fields ++ [(field_type, field_name, is_list)] }

/-- The `CodeGenerator.classes` dictionary, as a map from class name to
its `ClassDef` (absent keys map to `none`). -/
abbrev ClassMap := Str → Option ClassDef

/-- In-place mutation of one entry of the `classes` dictionary: apply
`f` to the entry at key `k`, leave every other entry unchanged. -/
def updateClass (m : ClassMap) (k : Str) (f : ClassDef → ClassDef) : ClassMap :=
  fun n => if n = k then (m k).map f else m n

/-- One diagnostic line printed by `_process_relationship`
(source class, relationship kind, target class, multiplicity). -/
abbrev Report := Str × RelKind × Str × Str

/-- Python's lower-casing of the first character used to build field
names (`target_class[0].lower() + target_class[1:]`). -/
def lowerFirst : Str → Str
  | [] => []
  | c :: rest => pyToLower c :: rest

/-- Model of `CodeGenerator._process_relationship` acting on the pair of the
`classes` map and the list of printed report lines: unresolved (or
Python-falsy, i.e. empty) source or target class returns the state
unchanged and prints nothing; otherwise the edge is reported and the
classification-specific mutation is applied. -/
def process_relationship (id_to_class : Str → Option Str) (st : ClassMap × List Report)
    (edge : Edge) : ClassMap × List Report :=
  match id_to_class edge.source_id, id_to_class edge.target_id with
  | some source_class, some target_class =>
    if source_class = [] ∨ target_class = [] then st
    else
      let rel_type := classify edge
      let multiplicity := get_multiplicity edge
      let log := st.2 ++ [(source_class, rel_type, target_class, multiplicity)]
      let classes :=
        match rel_type with
        | .EXPANDS =>
          updateClass st.1 source_class (fun c => { c with extends_ := some target_class })
        | .DEPENDS =>
          updateClass st.1 source_class
            (fun c => c.add_field target_class (lowerFirst target_class) false)
        | .HAVE =>
          let is_list := multiplicity == [42]
          let field_name :=
            if is_list then lowerFirst target_class ++ [115] else lowerFirst target_class
          updateClass st.1 source_class (fun c => c.add_field target_class field_name is_list)
        | .PART_OF =>
          let is_list := multiplicity == [42]
          let field_name :=
            if is_list then lowerFirst source_class ++ [115] else lowerFirst source_class
          updateClass st.1 target_class (fun c => c.add_field source_class field_name is_list)
        | .UNKNOWN => st.1
      (classes, log)
  | _, _ => st

/-- The edge-processing loop of `CodeGenerator.generate`: fold
`_process_relationship` over the extracted edges in order. -/
def processEdges (id_to_class : Str → Option Str) (st : ClassMap × List Report)
    (edges : List Edge) : ClassMap × List Report :=
  edges.foldl (process_relationship id_to_class) st

/-- One entry of the `text_labels` dictionary of `DrawIOParser.parse`:
the `(x, y)` origin of a text cell together with its trimmed value.
The list order is the dictionary's insertion (discovery) order. -/
abbrev TextLabel := (ℚ × ℚ) × Str

/-- Bounds test of `DrawIOParser.parse` line 77: the label origin
`(tx, ty)` lies inside the box rectangle. -/
def labelInBox (bx bY bw bh : ℚ) (lab : TextLabel) : Bool :=
  decide (bx ≤ lab.1.1) && decide (lab.1.1 ≤ bx + bw)
    && decide (bY ≤ lab.1.2) && decide (lab.1.2 ≤ bY + bh)

/-- Class-name resolution for one box (`DrawIOParser.parse` lines
72-83): a non-empty trimmed inline value is the candidate; otherwise
the first text label whose origin lies inside the box is taken; a
Python-falsy (empty) candidate leaves the box unresolved; a resolved
candidate is sanitized. -/
def resolveBox (text_labels : List TextLabel) (bx bY bw bh : ℚ) (value : Str) : Option Str :=
  let class_name : Option Str :=
    if value ≠ [] then some value
    else (text_labels.find? (labelInBox bx bY bw bh)).map (fun lab => lab.2)
  match class_name with
  | some n => if n = [] then none else some (sanitize_class_name n)
  | none => none

/-- Closure property of the class model: every parent pointer and every
field type names a key of the class map. -/
def closedMap (m : ClassMap) : Prop :=
  ∀ n c, m n = some c →
    (∀ p, c.extends_ = some p → (m p).isSome = true) ∧
    (∀ f ∈ c.fields, (m f.1).isSome = true)

/-- Concrete `id_to_class` map of a three-class diagram: shape ids
`1`, `2`, `3` resolve to classes `A`, `B`, `C`. -/
def idAB : Str → Option Str := fun i =>
  if i = strToCodes "1" then some (strToCodes "A")
  else if i = strToCodes "2" then some (strToCodes "B")
  else if i = strToCodes "3" then some (strToCodes "C")
  else none

/-- Concrete seeded class map for classes `A`, `B`, `C`, as built by
`CodeGenerator.generate` before edge processing. -/
def seedAB : ClassMap := fun n =>
  if n = strToCodes "A" then some { name := strToCodes "A" }
  else if n = strToCodes "B" then some { name := strToCodes "B" }
  else if n = strToCodes "C" then some { name := strToCodes "C" }
  else none

/-- Concrete HAVE edge `A → B` with multiplicity `1`: an `endFill=1`
style and an empty label. -/
def eHave : Edge := ⟨strToCodes "1", strToCodes "2", [], strToCodes "endFill=1"⟩

/-- Concrete EXPANDS edge `A → B` (label `expands`). -/
def eExpAB : Edge := ⟨strToCodes "1", strToCodes "2", strToCodes "expands", []⟩

/-- Concrete EXPANDS edge `A → C` (label `expands`). -/
def eExpAC : Edge := ⟨strToCodes "1", strToCodes "3", strToCodes "expands", []⟩

/-- Concrete DEPENDS edge `A → B` (label `depends`). -/
def eDep : Edge := ⟨strToCodes "1", strToCodes "2", strToCodes "depends", []⟩

/-- Two text labels whose origins both lie inside the box
`(0, 0, 100, 50)`. -/
def twoLabels : List TextLabel :=
  [((10, 10), strToCodes "user account"), ((20, 20), strToCodes "extra")]

example : classify ⟨[], [], strToCodes "Depends", strToCodes "dashed=1;endarrow=classic"⟩ = .DEPENDS := by decide
example : classify ⟨[], [], strToCodes "expands depends", strToCodes "dashed=1;endarrow=classic"⟩ = .EXPANDS := by decide
example : classify ⟨[], [], [], strToCodes "dashed=0;endarrow=classic"⟩ = .UNKNOWN := by decide
example : classify ⟨[], [], [], strToCodes "endarrow=classic"⟩ = .PART_OF := by decide
example : classify ⟨[], [], [], strToCodes "endFill=1"⟩ = .HAVE := by decide
example : sanitize_class_name (strToCodes "order item") = strToCodes "OrderItem" := by decide
example : sanitize_class_name (strToCodes "iPhone") = strToCodes "IPhone" := by decide
example : sanitize_class_name (strToCodes "user account") = strToCodes "UserAccount" := by decide
example : get_multiplicity ⟨[], [], strToCodes "0..*", []⟩ = strToCodes "*" := by decide

example : (processEdges idAB (seedAB, []) [eHave, eHave]).1 (strToCodes "A")
    = some { name := strToCodes "A", extends_ := none,
             fields := [(strToCodes "B", strToCodes "b", false)] } := by decide

example : (processEdges idAB (seedAB, []) [eExpAB, eExpAC]).1 (strToCodes "A")
    = some { name := strToCodes "A", extends_ := some (strToCodes "C"), fields := [] } := by decide

example : resolveBox twoLabels 0 0 100 50 [] = some (strToCodes "UserAccount") := by
  rw [resolveBox]
  norm_num [twoLabels, List.find?, labelInBox]
  decide

example : twoLabels.countP (labelInBox 0 0 100 50) = 2 := by
  norm_num [twoLabels, List.countP, List.countP.go, labelInBox]

example : (process_relationship idAB (seedAB, []) ⟨strToCodes "9", strToCodes "1", [], []⟩).2
    = [] := by decide

theorem pyToUpper_idem (c : Nat) : pyToUpper (pyToUpper c) = pyToUpper c := by
  simp only [pyToUpper]; split_ifs <;> omega

theorem pyIsSpace_pyToUpper (c : Nat) : pyIsSpace (pyToUpper c) = pyIsSpace c := by
  simp only [pyToUpper]; split_ifs with h
  · rw [Bool.eq_iff_iff]; simp only [pyIsSpace, Bool.or_eq_true, decide_eq_true_eq]; omega
  · rfl

theorem pyIsSpace_pyToLower (c : Nat) : pyIsSpace (pyToLower c) = pyIsSpace c := by
  simp only [pyToLower]; split_ifs with h
  · rw [Bool.eq_iff_iff]; simp only [pyIsSpace, Bool.or_eq_true, decide_eq_true_eq]; omega
  · rfl

theorem splitAux_tokens : ∀ (l cur : Str), (∀ c ∈ cur, pyIsSpace c = false) →
    ∀ t ∈ splitAux cur l, t ≠ [] ∧ ∀ c ∈ t, pyIsSpace c = false := by
  intro l
  induction l with
  | nil =>
    intro cur hcur t ht
    simp only [splitAux] at ht
    split at ht
    · simp at ht
    · rename_i hne
      rw [List.mem_singleton] at ht
      subst ht
      refine ⟨by simpa using hne, ?_⟩
      intro c hc
      exact hcur c (List.mem_reverse.mp hc)
  | cons a as ih =>
    intro cur hcur t ht
    simp only [splitAux] at ht
    split at ht
    · split at ht
      · exact ih [] (by simp) t ht
      · rename_i hne
        rcases List.mem_cons.mp ht with rfl | ht2
        · refine ⟨by simpa using hne, ?_⟩
          intro c hc
          exact hcur c (List.mem_reverse.mp hc)
        · exact ih [] (by simp) t ht2
    · rename_i hns
      refine ih (a :: cur) ?_ t ht
      intro c hc
      rcases List.mem_cons.mp hc with rfl | hc2
      · simpa using hns
      · exact hcur c hc2

theorem splitAux_all_nonspace : ∀ (l : Str), (∀ c ∈ l, pyIsSpace c = false) → ∀ (cur : Str),
    splitAux cur l = if cur = [] ∧ l = [] then [] else [cur.reverse ++ l] := by
  intro l
  induction l with
  | nil =>
    intro _ cur
    simp [splitAux]
  | cons a as ih =>
    intro hl cur
    have hans : pyIsSpace a = false := hl a (by simp)
    simp only [splitAux, hans, Bool.false_eq_true, if_false]
    rw [ih (fun c hc => hl c (by simp [hc])) (a :: cur)]
    simp

theorem splitAux_length_congr : ∀ (l cur cur' : Str), (cur = [] ↔ cur' = []) →
    (splitAux cur l).length = (splitAux cur' l).length := by
  intro l
  induction l with
  | nil =>
    intro cur cur' hiff
    simp only [splitAux]
    by_cases h : cur = []
    · rw [if_pos h, if_pos (hiff.mp h)]
    · rw [if_neg h, if_neg (fun h' => h (hiff.mpr h'))]
      rfl
  | cons a as ih =>
    intro cur cur' hiff
    simp only [splitAux]
    by_cases hsp : pyIsSpace a
    · simp only [hsp, if_true]
      by_cases h : cur = []
      · rw [if_pos h, if_pos (hiff.mp h)]
      · rw [if_neg h, if_neg (fun h' => h (hiff.mpr h'))]
        simp
    · simp only [hsp, Bool.false_eq_true, if_false]
      exact ih (a :: cur) (a :: cur') (by simp)

theorem pySplit_nonspace_ne_nil (l : Str) (hl : ∀ c ∈ l, pyIsSpace c = false) (hne : l ≠ []) :
    pySplit l = [l] := by
  rw [pySplit, splitAux_all_nonspace l hl []]
  simp [hne]

theorem sanitize_multi (x : Str) (h : (pySplit x).length > 1) :
    sanitize_class_name x = ((pySplit x).map capitalize).flatten := by
  simp only [sanitize_class_name]
  rw [if_pos h]

theorem sanitize_single (c : Nat) (rest : Str) (h : ¬((pySplit (c :: rest)).length > 1)) :
    sanitize_class_name (c :: rest) = pyToUpper c :: rest := by
  simp only [sanitize_class_name]
  rw [if_neg h]

theorem sanitize_idem (x : Str) :
    sanitize_class_name (sanitize_class_name x) = sanitize_class_name x := by
  have htok : ∀ t ∈ pySplit x, t ≠ [] ∧ ∀ c ∈ t, pyIsSpace c = false :=
    splitAux_tokens x [] (by simp)
  by_cases hlen : (pySplit x).length > 1
  · rw [sanitize_multi x hlen]
    set r := ((pySplit x).map capitalize).flatten with hr
    have hrns : ∀ c ∈ r, pyIsSpace c = false := by
      intro c hc
      rw [hr, List.mem_flatten] at hc
      obtain ⟨l, hl, hcl⟩ := hc
      rw [List.mem_map] at hl
      obtain ⟨t, htmem, rfl⟩ := hl
      obtain ⟨htne, htns⟩ := htok t htmem
      cases t with
      | nil => exact absurd rfl htne
      | cons a as =>
        simp only [capitalize] at hcl
        rcases List.mem_cons.mp hcl with rfl | hc2
        · rw [pyIsSpace_pyToUpper]; exact htns a (by simp)
        · rw [List.mem_map] at hc2
          obtain ⟨b, hb, rfl⟩ := hc2
          rw [pyIsSpace_pyToLower]; exact htns b (List.mem_cons_of_mem a hb)
    obtain ⟨p, ps, hps⟩ : ∃ p ps, pySplit x = p :: ps := by
      cases hp : pySplit x with
      | nil => rw [hp] at hlen; simp at hlen
      | cons p ps => exact ⟨p, ps, rfl⟩
    obtain ⟨hpne, -⟩ := htok p (by rw [hps]; simp)
    obtain ⟨a, as, rfl⟩ : ∃ a as, p = a :: as := by
      cases p with
      | nil => exact absurd rfl hpne
      | cons a as => exact ⟨a, as, rfl⟩
    have hrform : r = pyToUpper a :: (as.map pyToLower ++ (ps.map capitalize).flatten) := by
      rw [hr, hps]
      simp [capitalize]
    have hrne : r ≠ [] := by rw [hrform]; simp
    have h1 : ¬ ((pySplit r).length > 1) := by
      rw [pySplit_nonspace_ne_nil r hrns hrne]
      simp
    rw [hrform] at h1 ⊢
    rw [sanitize_single _ _ h1, pyToUpper_idem]
  · cases x with
    | nil => rfl
    | cons a as =>
      rw [sanitize_single a as hlen]
      have hlen2 : ¬ ((pySplit (pyToUpper a :: as)).length > 1) := by
        have heq : (pySplit (pyToUpper a :: as)).length = (pySplit (a :: as)).length := by
          simp only [pySplit, splitAux, pyIsSpace_pyToUpper]
          by_cases hsp : pyIsSpace a
          · simp [hsp]
          · simp only [hsp, Bool.false_eq_true, if_false]
            exact splitAux_length_congr as [pyToUpper a] [a] (by simp)
        omega
      rw [sanitize_single _ _ hlen2, pyToUpper_idem]

/-- C4: `sanitize_class_name` behaves as specified: several whitespace
tokens are each capitalized (first code point upper-cased, the rest of
the token lower-cased, as Python's `str.capitalize`) and concatenated
(`"order item"` gives `"OrderItem"`); a single token only has the first
code point of the string upper-cased, the rest untouched (`"iPhone"`
gives `"IPhone"`), so in that case no code point is ever lower-cased —
every output code point is the input code point or the upper-casing of
the first one; the empty string gives the empty string. -/
theorem sanitize_spec :
    (sanitize_class_name (strToCodes "order item") = strToCodes "OrderItem") ∧
    (sanitize_class_name (strToCodes "iPhone") = strToCodes "IPhone") ∧
    (sanitize_class_name [] = []) ∧
    (∀ x : Str, (pySplit x).length > 1 →
      sanitize_class_name x = ((pySplit x).map capitalize).flatten) ∧
    (∀ (c : Nat) (rest : Str), ¬((pySplit (c :: rest)).length > 1) →
      sanitize_class_name (c :: rest) = pyToUpper c :: rest ∧
      List.Forall₂ (fun a b => b = a ∨ b = pyToUpper a) (c :: rest)
        (sanitize_class_name (c :: rest))) := by
  refine ⟨by decide, by decide, rfl, sanitize_multi, ?_⟩
  intro c rest h
  refine ⟨sanitize_single c rest h, ?_⟩
  rw [sanitize_single c rest h]
  constructor
  · right; rfl
  · exact List.forall₂_same.mpr (fun a _ => Or.inl rfl)

/-- C4 witness: the single-token rule evaluated on `"iPhone"`. -/
theorem sanitize_spec_witness :
    sanitize_class_name (105 :: strToCodes "Phone") = pyToUpper 105 :: strToCodes "Phone" ∧
    List.Forall₂ (fun a b => b = a ∨ b = pyToUpper a) (105 :: strToCodes "Phone")
      (sanitize_class_name (105 :: strToCodes "Phone")) :=
  sanitize_spec.2.2.2.2 105 (strToCodes "Phone") (by decide)

/-- C9: sanitization is deterministic (it is a function of the raw
text alone) and idempotent, and for a box with non-empty inline value
the resolved class name is `sanitize_class_name` of that value, whatever
the text labels and the geometry are. -/
theorem sanitize_idempotent_pure :
    (∀ x : Str, sanitize_class_name (sanitize_class_name x) = sanitize_class_name x) ∧
    (∀ (text_labels : List TextLabel) (bx bY bw bh : ℚ) (value : Str), value ≠ [] →
      resolveBox text_labels bx bY bw bh value = some (sanitize_class_name value)) := by
  refine ⟨sanitize_idem, ?_⟩
  intro labels bx bY bw bh value hv
  simp only [resolveBox]
  rw [if_pos hv]
  show (if value = [] then none else some (sanitize_class_name value))
      = some (sanitize_class_name value)
  rw [if_neg hv]

/-- C9 witness: a box with inline value `"order item"` resolves to
`sanitize_class_name "order item" = "OrderItem"` whatever the labels. -/
theorem sanitize_idempotent_pure_witness :
    resolveBox twoLabels 3 4 5 6 (strToCodes "order item")
      = some (sanitize_class_name (strToCodes "order item")) :=
  sanitize_idempotent_pure.2 twoLabels 3 4 5 6 (strToCodes "order item") (by decide)

/-- C1 counterexample: the label `"expands depends"` contains
`"depends"` (case-insensitively) and the style is dashed with a classic
end-arrow, yet `classify` returns EXPANDS, not DEPENDS, because the
`"expands"` label rule precedes the `"depends"` label rule. -/
theorem classify_depends_counterexample :
    (strToCodes "depends") <:+: lowerStr (strToCodes "expands depends") ∧
    classify ⟨[], [], strToCodes "expands depends", strToCodes "dashed=1;endarrow=classic"⟩
      = .EXPANDS ∧
    classify ⟨[], [], strToCodes "expands depends", strToCodes "dashed=1;endarrow=classic"⟩
      ≠ .DEPENDS := by decide

/-- C1 amended: `classify` is total and always returns one of the five
kinds, and every edge whose label contains `"depends"` but not
`"expands"` (case-insensitively) classifies as DEPENDS whatever the
style is, dashed/classic styles included. -/
theorem classify_total_depends_precedence :
    (∀ e : Edge, classify e = .EXPANDS ∨ classify e = .DEPENDS ∨ classify e = .HAVE ∨
      classify e = .PART_OF ∨ classify e = .UNKNOWN) ∧
    (∀ source_id target_id label style : Str,
      (strToCodes "depends") <:+: lowerStr label →
      ¬ ((strToCodes "expands") <:+: lowerStr label) →
      classify ⟨source_id, target_id, label, style⟩ = .DEPENDS) := by
  constructor
  · intro e
    cases classify e <;> simp
  · intro source_id target_id label style h1 h2
    simp [classify, strContains, h1, h2]

/-- C1 witness: the label `"Depends"` with a dashed/classic style
classifies as DEPENDS. -/
theorem classify_total_depends_precedence_witness :
    classify ⟨[], [], strToCodes "Depends", strToCodes "dashed=1;endarrow=classic"⟩
      = .DEPENDS :=
  classify_total_depends_precedence.2 [] [] (strToCodes "Depends")
    (strToCodes "dashed=1;endarrow=classic") (by decide) (by decide)

/-- C2 counterexample: the style `"dashed=0;endarrow=classic"` states a
non-dashed line with a classic end-arrow, yet `classify` returns
UNKNOWN, not PART_OF: the code's rule-5 guard is `'dashed' not in
style`, and `"dashed=0"` contains the substring `"dashed"`. -/
theorem classify_part_of_counterexample :
    (strToCodes "endarrow=classic") <:+: lowerStr (strToCodes "dashed=0;endarrow=classic") ∧
    ¬ ((strToCodes "dashed=1") <:+: lowerStr (strToCodes "dashed=0;endarrow=classic")) ∧
    classify ⟨[], [], [], strToCodes "dashed=0;endarrow=classic"⟩ = .UNKNOWN ∧
    classify ⟨[], [], [], strToCodes "dashed=0;endarrow=classic"⟩ ≠ .PART_OF := by decide

/-- C2 amended: for an edge whose label contains neither `"expands"`
nor `"depends"`, whose style does not match the filled-terminator
rule, and whose style contains no occurrence of the substring
`"dashed"` at all (the code's notion of a non-dashed line) but contains
`"endarrow=classic"` or `"endarrow=block"`, `classify` returns
PART_OF.  Styles stating non-dashedness explicitly via `"dashed=0"` do
contain `"dashed"` and fall to UNKNOWN instead (see the
counterexample). -/
theorem classify_part_of_amended :
    ∀ source_id target_id label style : Str,
      strContains (lowerStr label) (strToCodes "expands") = false →
      strContains (lowerStr label) (strToCodes "depends") = false →
      ((strContains (lowerStr style) (strToCodes "endfill")
          || strContains (lowerStr style) (strToCodes "startfill=1"))
        && (strContains (lowerStr style) (strToCodes "endfill=1")
          || strContains (lowerStr style) (strToCodes "startarrow=oval"))) = false →
      strContains (lowerStr style) (strToCodes "dashed") = false →
      (strContains (lowerStr style) (strToCodes "endarrow=classic")
        || strContains (lowerStr style) (strToCodes "endarrow=block")) = true →
      classify ⟨source_id, target_id, label, style⟩ = .PART_OF := by
  intro source_id target_id label style h1 h2 h3 h4 h5
  have h4' : ¬ ((strToCodes "dashed") <:+: lowerStr style) := by
    simpa [strContains] using h4
  have hd1 : strContains (lowerStr style) (strToCodes "dashed=1") = false := by
    simp only [strContains, decide_eq_false_iff_not]
    exact fun h => h4' (List.IsInfix.trans (by decide) h)
  have hea : strContains (lowerStr style) (strToCodes "endarrow") = true := by
    simp only [strContains, decide_eq_true_eq]
    rcases Bool.or_eq_true_iff.mp h5 with h | h
    · have hc : (strToCodes "endarrow=classic") <:+: lowerStr style := by
        simpa [strContains] using h
      exact List.IsInfix.trans (by decide) hc
    · have hc : (strToCodes "endarrow=block") <:+: lowerStr style := by
        simpa [strContains] using h
      exact List.IsInfix.trans (by decide) hc
  simp [classify, h1, h2, h3, hd1, h4, hea, h5]

/-- C2 witness: a plain `"endarrow=classic"` style with an empty label
classifies as PART_OF. -/
theorem classify_part_of_amended_witness :
    classify ⟨[], [], [], strToCodes "endarrow=classic"⟩ = .PART_OF :=
  classify_part_of_amended [] [] [] (strToCodes "endarrow=classic")
    (by decide) (by decide) (by decide) (by decide) (by decide)

theorem add_field_extends (c : ClassDef) (ft fn : Str) (il : Bool) :
    (c.add_field ft fn il).extends_ = c.extends_ := by
  simp only [ClassDef.add_field]
  split <;> rfl

theorem add_field_mem (c : ClassDef) (ft fn : Str) (il : Bool) :
    ∀ f ∈ (c.add_field ft fn il).fields, f ∈ c.fields ∨ f = (ft, fn, il) := by
  intro f hf
  simp only [ClassDef.add_field] at hf
  split at hf
  · exact Or.inl hf
  · rcases List.mem_append.mp hf with h | h
    · exact Or.inl h
    · exact Or.inr (List.mem_singleton.mp h)

theorem updateClass_isSome (m : ClassMap) (k : Str) (f : ClassDef → ClassDef) (n : Str) :
    ((updateClass m k f) n).isSome = (m n).isSome := by
  simp only [updateClass]
  split
  · rename_i h
    subst h
    cases m n <;> rfl
  · rfl

theorem process_resolved (idc : Str → Option Str) (m : ClassMap) (log : List Report)
    (e : Edge) (s t : Str) (hs : idc e.source_id = some s) (ht : idc e.target_id = some t)
    (hs0 : s ≠ []) (ht0 : t ≠ []) :
    process_relationship idc (m, log) e =
      ((match classify e with
        | .EXPANDS => updateClass m s (fun c => { c with extends_ := some t })
        | .DEPENDS => updateClass m s (fun c => c.add_field t (lowerFirst t) false)
        | .HAVE => updateClass m s (fun c => c.add_field t
            (if get_multiplicity e == [42] then lowerFirst t ++ [115] else lowerFirst t)
            (get_multiplicity e == [42]))
        | .PART_OF => updateClass m t (fun c => c.add_field s
            (if get_multiplicity e == [42] then lowerFirst s ++ [115] else lowerFirst s)
            (get_multiplicity e == [42]))
        | .UNKNOWN => m),
       log ++ [(s, classify e, t, get_multiplicity e)]) := by
  simp only [process_relationship, hs, ht]
  rw [if_neg (by simp [hs0, ht0])]

theorem process_unresolved (idc : Str → Option Str) (st : ClassMap × List Report) (e : Edge)
    (h : idc e.source_id = none ∨ idc e.target_id = none) :
    process_relationship idc st e = st := by
  rcases h with h | h
  · simp only [process_relationship, h]
  · cases hs : idc e.source_id with
    | none => simp only [process_relationship, hs]
    | some s => simp only [process_relationship, hs, h]

/-- C3: for a processed edge whose endpoints resolve to classes `s` and
`t`, a DEPENDS or HAVE classification attaches the new field to the
source class `s` with field type `t`, a PART_OF classification attaches
it to the target class `t` with field type `s`, named
`lowerFirst s` for multiplicity `"1"` and `lowerFirst s ++ "s"` as a
collection for multiplicity `"*"`; classes other than the attach side
are untouched (the attach itself is subject to the duplicate-name
no-op inside `add_field`). -/
theorem process_field_placement :
    ∀ (id_to_class : Str → Option Str) (m : ClassMap) (log : List Report) (e : Edge)
      (s t : Str),
      id_to_class e.source_id = some s → id_to_class e.target_id = some t →
      s ≠ [] → t ≠ [] →
      ((classify e = .DEPENDS →
        (process_relationship id_to_class (m, log) e).1
          = updateClass m s (fun c => c.add_field t (lowerFirst t) false)) ∧
       (classify e = .HAVE → get_multiplicity e = strToCodes "1" →
        (process_relationship id_to_class (m, log) e).1
          = updateClass m s (fun c => c.add_field t (lowerFirst t) false)) ∧
       (classify e = .HAVE → get_multiplicity e = strToCodes "*" →
        (process_relationship id_to_class (m, log) e).1
          = updateClass m s (fun c => c.add_field t (lowerFirst t ++ strToCodes "s") true)) ∧
       (classify e = .PART_OF → get_multiplicity e = strToCodes "1" →
        (process_relationship id_to_class (m, log) e).1
          = updateClass m t (fun c => c.add_field s (lowerFirst s) false)) ∧
       (classify e = .PART_OF → get_multiplicity e = strToCodes "*" →
        (process_relationship id_to_class (m, log) e).1
          = updateClass m t (fun c => c.add_field s (lowerFirst s ++ strToCodes "s") true)) ∧
       (∀ n : Str, n ≠ s → n ≠ t →
        (process_relationship id_to_class (m, log) e).1 n = m n)) := by
  intro idc m log e s t hs ht hs0 ht0
  have hone : ((strToCodes "1" : Str) == ([42] : Str)) = false := by decide
  have hstar : ((strToCodes "*" : Str) == ([42] : Str)) = true := by decide
  have hs115 : (strToCodes "s" : Str) = [115] := by decide
  refine ⟨?_, ?_, ?_, ?_, ?_, ?_⟩
  · intro hcl
    rw [process_resolved idc m log e s t hs ht hs0 ht0, hcl]
  · intro hcl hm
    rw [process_resolved idc m log e s t hs ht hs0 ht0, hcl, hm]
    simp [hone]
  · intro hcl hm
    rw [process_resolved idc m log e s t hs ht hs0 ht0, hcl, hm]
    simp [hstar, hs115]
  · intro hcl hm
    rw [process_resolved idc m log e s t hs ht hs0 ht0, hcl, hm]
    simp [hone]
  · intro hcl hm
    rw [process_resolved idc m log e s t hs ht hs0 ht0, hcl, hm]
    simp [hstar, hs115]
  · intro n hns hnt
    rw [process_resolved idc m log e s t hs ht hs0 ht0]
    cases hcl : classify e <;> simp [updateClass, hns, hnt]

/-- C3 witness: the concrete DEPENDS edge `A → B` puts field `b : B` on
class `A`. -/
theorem process_field_placement_witness :
    (process_relationship idAB (seedAB, []) eDep).1
      = updateClass seedAB (strToCodes "A")
          (fun c => c.add_field (strToCodes "B") (lowerFirst (strToCodes "B")) false) :=
  (process_field_placement idAB seedAB [] eDep (strToCodes "A") (strToCodes "B")
    (by decide) (by decide) (by decide) (by decide)).1 (by decide)

/-- C6: field names are unique within one `ClassDef` and the first
writer wins: `add_field` preserves no-duplicate field names, an
`add_field` whose name already exists is the identity, and processing
the two identical multiplicity-`1` HAVE edges `A → B` leaves class `A`
with exactly one field `b : B`. -/
theorem add_field_unique :
    (∀ (c : ClassDef) (ft fn : Str) (il : Bool),
      (c.fields.map (fun f => f.2.1)).Nodup →
      ((c.add_field ft fn il).fields.map (fun f => f.2.1)).Nodup) ∧
    (∀ (c : ClassDef) (ft fn : Str) (il : Bool),
      (∃ f ∈ c.fields, f.2.1 = fn) → c.add_field ft fn il = c) ∧
    ((processEdges idAB (seedAB, []) [eHave, eHave]).1 (strToCodes "A")
      = some { name := strToCodes "A", extends_ := none,
               fields := [(strToCodes "B", strToCodes "b", false)] }) := by
  refine ⟨?_, ?_, by decide⟩
  · intro c ft fn il h
    simp only [ClassDef.add_field]
    split
    · exact h
    · rename_i hany
      rw [List.map_append, List.nodup_append]
      refine ⟨h, by simp, ?_⟩
      intro a ha hafn
      obtain ⟨f, hf, rfl⟩ := List.mem_map.mp ha
      apply hany
      refine List.any_eq_true.mpr ⟨f, hf, ?_⟩
      have : f.2.1 = fn := by simpa using hafn
      simp [this]
  · intro c ft fn il h
    obtain ⟨f, hf, hfn⟩ := h
    simp only [ClassDef.add_field]
    rw [if_pos]
    exact List.any_eq_true.mpr ⟨f, hf, by simp [hfn]⟩

/-- C6 witness: re-adding field name `b` to a class that already has it
is the identity, whatever the new type and collection flag. -/
theorem add_field_unique_witness :
    ClassDef.add_field
        { name := strToCodes "A", extends_ := none,
          fields := [(strToCodes "B", strToCodes "b", false)] }
        (strToCodes "C") (strToCodes "b") true
      = { name := strToCodes "A", extends_ := none,
          fields := [(strToCodes "B", strToCodes "b", false)] } :=
  add_field_unique.2.1 _ (strToCodes "C") (strToCodes "b") true
    ⟨(strToCodes "B", strToCodes "b", false), by decide, rfl⟩

theorem updateClass_map_proj {β : Type} (m : ClassMap) (k : Str) (f : ClassDef → ClassDef)
    (g : ClassDef → β) (hfg : ∀ c, g (f c) = g c) (n : Str) :
    ((updateClass m k f) n).map g = (m n).map g := by
  simp only [updateClass]
  split
  · rename_i h
    subst h
    cases m n <;> simp [hfg]
  · rfl

theorem process_relationship_isSome (idc : Str → Option Str) (st : ClassMap × List Report)
    (e : Edge) (n : Str) :
    ((process_relationship idc st e).1 n).isSome = ((st.1) n).isSome := by
  obtain ⟨m, log⟩ := st
  cases hs : idc e.source_id with
  | none => rw [process_unresolved idc (m, log) e (Or.inl hs)]
  | some s =>
    cases ht : idc e.target_id with
    | none => rw [process_unresolved idc (m, log) e (Or.inr ht)]
    | some t =>
      by_cases h0 : s = [] ∨ t = []
      · simp only [process_relationship, hs, ht]
        rw [if_pos h0]
      · have hs0 : s ≠ [] := fun h => h0 (Or.inl h)
        have ht0 : t ≠ [] := fun h => h0 (Or.inr h)
        rw [process_resolved idc m log e s t hs ht hs0 ht0]
        cases hcl : classify e <;> simp only [hcl] <;>
          first
          | rfl
          | apply updateClass_isSome

theorem processEdges_isSome (idc : Str → Option Str) (st : ClassMap × List Report)
    (es : List Edge) (n : Str) :
    ((processEdges idc st es).1 n).isSome = ((st.1) n).isSome := by
  induction es generalizing st with
  | nil => rfl
  | cons e es ih =>
    rw [processEdges, List.foldl_cons]
    have h1 := ih (process_relationship idc st e)
    have h2 := process_relationship_isSome idc st e n
    exact h1.trans h2

/-- C7: an EXPANDS edge with resolved endpoints sets the source
class's parent to the target class and changes no field list anywhere;
HAVE, DEPENDS and PART_OF edges never change any class's parent; and
when the last edge of a processed sequence is an EXPANDS edge with
resolved source `s` and target `t`, the final parent of `s` is `t`
regardless of everything processed before (last writer wins). -/
theorem process_parent_rules :
    (∀ (id_to_class : Str → Option Str) (m : ClassMap) (log : List Report) (e : Edge)
      (s t : Str),
      id_to_class e.source_id = some s → id_to_class e.target_id = some t →
      s ≠ [] → t ≠ [] → classify e = .EXPANDS →
      (process_relationship id_to_class (m, log) e).1
          = updateClass m s (fun c => { c with extends_ := some t }) ∧
      ∀ n : Str, (((process_relationship id_to_class (m, log) e).1) n).map ClassDef.fields
          = (m n).map ClassDef.fields) ∧
    (∀ (id_to_class : Str → Option Str) (st : ClassMap × List Report) (e : Edge),
      (classify e = .HAVE ∨ classify e = .DEPENDS ∨ classify e = .PART_OF) →
      ∀ n : Str, (((process_relationship id_to_class st e).1) n).map ClassDef.extends_
          = ((st.1) n).map ClassDef.extends_) ∧
    (∀ (id_to_class : Str → Option Str) (m : ClassMap) (log : List Report)
      (es : List Edge) (e : Edge) (s t : Str),
      id_to_class e.source_id = some s → id_to_class e.target_id = some t →
      s ≠ [] → t ≠ [] → classify e = .EXPANDS → (m s).isSome = true →
      ∃ c : ClassDef, (processEdges id_to_class (m, log) (es ++ [e])).1 s = some c ∧
        c.extends_ = some t) := by
  refine ⟨?_, ?_, ?_⟩
  · intro idc m log e s t hs ht hs0 ht0 hcl
    rw [process_resolved idc m log e s t hs ht hs0 ht0]
    simp only [hcl]
    refine ⟨trivial, ?_⟩
    intro n
    exact updateClass_map_proj m s (fun c => { c with extends_ := some t })
      ClassDef.fields (fun c => rfl) n
  · intro idc st e hcl n
    obtain ⟨m, log⟩ := st
    cases hs : idc e.source_id with
    | none => rw [process_unresolved idc (m, log) e (Or.inl hs)]
    | some s =>
      cases ht : idc e.target_id with
      | none => rw [process_unresolved idc (m, log) e (Or.inr ht)]
      | some t =>
        by_cases h0 : s = [] ∨ t = []
        · simp only [process_relationship, hs, ht]
          rw [if_pos h0]
        · have hs0 : s ≠ [] := fun h => h0 (Or.inl h)
          have ht0 : t ≠ [] := fun h => h0 (Or.inr h)
          rw [process_resolved idc m log e s t hs ht hs0 ht0]
          rcases hcl with hcl | hcl | hcl <;> simp only [hcl] <;>
            exact updateClass_map_proj m _ _ ClassDef.extends_
              (fun c => add_field_extends c _ _ _) n
  · intro idc m log es e s t hs ht hs0 ht0 hcl hsome
    rw [processEdges, List.foldl_append, List.foldl_cons, List.foldl_nil]
    rcases hp : processEdges idc (m, log) es with ⟨m1, log1⟩
    have hdom : (m1 s).isSome = true := by
      have h := processEdges_isSome idc (m, log) es s
      rw [hp] at h
      exact h.trans hsome
    obtain ⟨c1, hc1⟩ := Option.isSome_iff_exists.mp hdom
    refine ⟨{ c1 with extends_ := some t }, ?_, rfl⟩
    have hfold : List.foldl (process_relationship idc) (m, log) es = (m1, log1) := hp
    rw [hfold, process_resolved idc m1 log1 e s t hs ht hs0 ht0]
    simp only [hcl]
    simp [updateClass, hc1]

/-- C7 witness: two EXPANDS edges from class `A` (to `B`, then to `C`)
leave `A` with parent `C`. -/
theorem process_parent_rules_witness :
    ∃ c : ClassDef, (processEdges idAB (seedAB, []) ([eExpAB] ++ [eExpAC])).1 (strToCodes "A")
        = some c ∧ c.extends_ = some (strToCodes "C") :=
  process_parent_rules.2.2 idAB seedAB [] [eExpAB] eExpAC (strToCodes "A") (strToCodes "C")
    (by decide) (by decide) (by decide) (by decide) (by decide) (by decide)

/-- C8 counterexample: an edge whose source id `9` resolves to no
class is skipped with an empty report list — nothing is printed for it,
the early return precedes the diagnostic print, so the claim's "the
edge is reported" is false. -/
theorem process_unresolved_counterexample :
    idAB (strToCodes "9") = none ∧
    (process_relationship idAB (seedAB, []) ⟨strToCodes "9", strToCodes "1", [], []⟩).2
      = ([] : List Report) := by
  exact ⟨by decide, rfl⟩

/-- C8 amended: an edge whose source or target identifier does not
resolve to a known class leaves the whole state — every `ClassDef` and
the report log — unchanged, and processing is total (never throws);
the skip is silent, the edge is not reported. -/
theorem process_unresolved_skip :
    ∀ (id_to_class : Str → Option Str) (st : ClassMap × List Report) (e : Edge),
      (id_to_class e.source_id = none ∨ id_to_class e.target_id = none) →
      process_relationship id_to_class st e = st :=
  process_unresolved

/-- C8 witness: the unresolved edge `7 → 1` leaves the seeded state
untouched. -/
theorem process_unresolved_skip_witness :
    process_relationship idAB (seedAB, []) ⟨strToCodes "7", strToCodes "1", [], []⟩
      = (seedAB, []) :=
  process_unresolved_skip idAB (seedAB, []) ⟨strToCodes "7", strToCodes "1", [], []⟩
    (Or.inl (by decide))

theorem closedMap_update_extends (m : ClassMap) (k t : Str) (hm : closedMap m)
    (ht : (m t).isSome = true) :
    closedMap (updateClass m k (fun c => { c with extends_ := some t })) := by
  intro n c hc
  have hdom : ∀ p : Str,
      ((updateClass m k (fun c => { c with extends_ := some t })) p).isSome = (m p).isSome :=
    fun p => updateClass_isSome m k _ p
  simp only [updateClass] at hc
  split at hc
  · rename_i hnk
    obtain ⟨c0, hc0, hfc⟩ := Option.map_eq_some'.mp hc
    subst hfc
    constructor
    · intro p hp
      obtain rfl : t = p := by simpa using hp
      rw [hdom]
      exact ht
    · intro f hf
      rw [hdom]
      exact (hm k c0 hc0).2 f hf
  · constructor
    · intro p hp
      rw [hdom]
      exact (hm n c hc).1 p hp
    · intro f hf
      rw [hdom]
      exact (hm n c hc).2 f hf

theorem closedMap_update_add_field (m : ClassMap) (k ty fn : Str) (il : Bool)
    (hm : closedMap m) (hty : (m ty).isSome = true) :
    closedMap (updateClass m k (fun c => c.add_field ty fn il)) := by
  intro n c hc
  have hdom : ∀ p : Str,
      ((updateClass m k (fun c => c.add_field ty fn il)) p).isSome = (m p).isSome :=
    fun p => updateClass_isSome m k _ p
  simp only [updateClass] at hc
  split at hc
  · rename_i hnk
    obtain ⟨c0, hc0, hfc⟩ := Option.map_eq_some'.mp hc
    subst hfc
    constructor
    · intro p hp
      rw [add_field_extends] at hp
      rw [hdom]
      exact (hm k c0 hc0).1 p hp
    · intro f hf
      rw [hdom]
      rcases add_field_mem c0 ty fn il f hf with h | rfl
      · exact (hm k c0 hc0).2 f h
      · exact hty
  · constructor
    · intro p hp
      rw [hdom]
      exact (hm n c hc).1 p hp
    · intro f hf
      rw [hdom]
      exact (hm n c hc).2 f hf

theorem closedMap_step (idc : Str → Option Str) (m : ClassMap) (log : List Report) (e : Edge)
    (hrange : ∀ i n, idc i = some n → (m n).isSome = true) (hm : closedMap m) :
    closedMap ((process_relationship idc (m, log) e).1) := by
  cases hs : idc e.source_id with
  | none => rw [process_unresolved idc (m, log) e (Or.inl hs)]; exact hm
  | some s =>
    cases ht : idc e.target_id with
    | none => rw [process_unresolved idc (m, log) e (Or.inr ht)]; exact hm
    | some t =>
      by_cases h0 : s = [] ∨ t = []
      · simp only [process_relationship, hs, ht]
        rw [if_pos h0]
        exact hm
      · have hs0 : s ≠ [] := fun h => h0 (Or.inl h)
        have ht0 : t ≠ [] := fun h => h0 (Or.inr h)
        have hsome_s := hrange e.source_id s hs
        have hsome_t := hrange e.target_id t ht
        rw [process_resolved idc m log e s t hs ht hs0 ht0]
        cases hcl : classify e <;> simp only [hcl]
        · exact closedMap_update_extends m s t hm hsome_t
        · exact closedMap_update_add_field m s t (lowerFirst t) false hm hsome_t
        · exact closedMap_update_add_field m s t _ _ hm hsome_t
        · exact closedMap_update_add_field m t s _ _ hm hsome_s
        · exact hm

/-- C10: model closure invariant — starting from a class map whose
domain covers every class name in the range of `id_to_class` (the
seeding `CodeGenerator.generate` performs) and which is closed, after
processing any edge list every `ClassDef` in the map refers only to
classes of the map: its parent, when set, is a key, and every field
type is a key. -/
theorem process_model_closure :
    ∀ (id_to_class : Str → Option Str) (m : ClassMap) (log : List Report) (es : List Edge),
      (∀ i n, id_to_class i = some n → (m n).isSome = true) →
      closedMap m →
      closedMap ((processEdges id_to_class (m, log) es).1) := by
  intro idc m log es
  induction es generalizing m log with
  | nil => intro _ hm; exact hm
  | cons e es ih =>
    intro hrange hm
    rw [processEdges, List.foldl_cons]
    rcases hp : process_relationship idc (m, log) e with ⟨m1, log1⟩
    have hdom : ∀ n, (m1 n).isSome = (m n).isSome := by
      intro n
      have h := process_relationship_isSome idc (m, log) e n
      rw [hp] at h
      exact h
    have hm1 : closedMap m1 := by
      have h := closedMap_step idc m log e hrange hm
      rw [hp] at h
      exact h
    have hrange1 : ∀ i n, idc i = some n → (m1 n).isSome = true := by
      intro i n h
      rw [hdom]
      exact hrange i n h
    exact ih m1 log1 hrange1 hm1

/-- C10 witness: the three-class seed processed over a HAVE and an
EXPANDS edge yields a closed model. -/
theorem process_model_closure_witness :
    closedMap ((processEdges idAB (seedAB, []) [eHave, eExpAB]).1) :=
  process_model_closure idAB seedAB [] [eHave, eExpAB]
    (by
      intro i n h
      simp only [idAB] at h
      split_ifs at h with h1 h2 h3
      · injection h with h'; subst h'; decide
      · injection h with h'; subst h'; decide
      · injection h with h'; subst h'; decide)
    (by
      intro n c hc
      simp only [seedAB] at hc
      split_ifs at hc with h1 h2 h3
      · injection hc with h'; subst h'
        exact ⟨fun p hp => by simp at hp, fun f hf => by simp at hf⟩
      · injection hc with h'; subst h'
        exact ⟨fun p hp => by simp at hp, fun f hf => by simp at hf⟩
      · injection hc with h'; subst h'
        exact ⟨fun p hp => by simp at hp, fun f hf => by simp at hf⟩)

/-- C5 counterexample: with two text labels whose origins both lie in
the box `(0, 0, 100, 50)`, resolution of an empty-value box succeeds
(the first matching label `"user account"` is taken, giving
`UserAccount`) although the number of labels inside the bounds is 2,
not exactly one — so "succeeds iff exactly one label lies within the
bounds" is false. -/
theorem resolve_exactly_one_counterexample :
    ¬ (((resolveBox twoLabels 0 0 100 50 []).isSome = true) ↔
        twoLabels.countP (labelInBox 0 0 100 50) = 1) ∧
    resolveBox twoLabels 0 0 100 50 [] = some (strToCodes "UserAccount") ∧
    twoLabels.countP (labelInBox 0 0 100 50) = 2 := by
  have h1 : resolveBox twoLabels 0 0 100 50 [] = some (strToCodes "UserAccount") := by
    rw [resolveBox]
    norm_num [twoLabels, List.find?, labelInBox]
    decide
  have h2 : twoLabels.countP (labelInBox 0 0 100 50) = 2 := by
    norm_num [twoLabels, List.countP, List.countP.go, labelInBox]
  refine ⟨?_, h1, h2⟩
  intro hiff
  have h3 := hiff.mp (by rw [h1]; rfl)
  omega

/-- C5 amended: for a box with empty (Python-falsy) inline value,
resolution succeeds if and only if at least one text label's origin
lies within the box bounds — the first such label in discovery order
is taken (text labels always carry non-empty trimmed text, the stated
hypothesis); concretely, the box `(0, 0, 100, 50)` with the single
label `"user account"` at `(10, 10)` resolves to `UserAccount`. -/
theorem resolve_empty_value_amended :
    (∀ (text_labels : List TextLabel) (bx bY bw bh : ℚ),
      (∀ lab ∈ text_labels, lab.2 ≠ []) →
      ((resolveBox text_labels bx bY bw bh []).isSome = true ↔
        ∃ lab ∈ text_labels, labelInBox bx bY bw bh lab = true)) ∧
    resolveBox [((10, 10), strToCodes "user account")] 0 0 100 50 []
      = some (strToCodes "UserAccount") := by
  constructor
  · intro labels bx bY bw bh hne
    simp only [resolveBox]
    rw [if_neg (by simp)]
    constructor
    · intro h
      cases hf : labels.find? (labelInBox bx bY bw bh) with
      | none => rw [hf] at h; simp at h
      | some lab =>
        exact ⟨lab, List.mem_of_find?_eq_some hf, List.find?_some hf⟩
    · intro hex
      obtain ⟨lab, hmem, hlab⟩ := hex
      have hsome : (labels.find? (labelInBox bx bY bw bh)).isSome = true :=
        List.find?_isSome.mpr ⟨lab, hmem, hlab⟩
      obtain ⟨lab', hf⟩ := Option.isSome_iff_exists.mp hsome
      rw [hf]
      have hne' : lab'.2 ≠ [] := hne lab' (List.mem_of_find?_eq_some hf)
      simp [hne']
  · rw [resolveBox]
    norm_num [List.find?, labelInBox]
    decide

/-- C5 witness: the single-label instance of the amended equivalence. -/
theorem resolve_empty_value_amended_witness :
    (resolveBox [((10, 10), strToCodes "user account")] 0 0 100 50 []).isSome = true ↔
      ∃ lab ∈ [(((10 : ℚ), (10 : ℚ)), strToCodes "user account")],
        labelInBox 0 0 100 50 lab = true :=
  resolve_empty_value_amended.1 [((10, 10), strToCodes "user account")] 0 0 100 50
    (by decide)

end Generate
